import Mathlib

/-!
Verification of the dvw watermarking core against its natural-language
specification.  Each Python function referenced by a claim is embedded as an
executable Lean definition that mirrors the source line by line; theorems then
settle the claims against those definitions.

Modelling conventions:
* numpy 1-D arrays of numeric samples become `List ℚ` (Python floats are
  treated as exact rationals; the code only adds, halves and compares them);
* Python integers become `Int` or `Nat` (`//` on non-negative values is `Nat`
  division);
* in-place mutation becomes value passing; a file of bytes becomes `List Nat`;
* exceptions become `Option`/`Except`.
-/

namespace Dvw

/-! ### util.shape2shape (dvw/core/util/util.py)

`shape2shape(old_shape, new_shape)` resolves an output video shape from an
input shape and an optional override.  The override is `None`, the sentinel
`-1` (swap), or a `(height, width)` pair whose components may be `None` (or
`0`, both falsy in Python). -/

/-- The `new_shape` argument of `shape2shape`: `None`, the swap sentinel `-1`,
or a `(height, width)` pair with possibly-unset components. -/
inductive ShapeOverride where
  | noOverride : ShapeOverride
  | swap : ShapeOverride
  | pair (h w : Option Nat) : ShapeOverride

/-- Python truthiness for an optional dimension: `None` and `0` are falsy. -/
def dimFalsy : Option Nat → Bool
  | none => true
  | some v => v == 0

/-- Embedding of `shape2shape`.  The Python `//` is `Nat` division here (all
dimensions are non-negative). -/
def shape2shape (old : Nat × Nat) (ns : ShapeOverride) : Nat × Nat :=
  match ns with
  | .swap => (old.2, old.1)
  | .noOverride => old
  | .pair h w =>
    if dimFalsy h && dimFalsy w then old
    else if dimFalsy h then
      let wv := w.getD 0
      (wv * old.1 / old.2, wv)
    else if dimFalsy w then
      let hv := h.getD 0
      (hv, hv * old.2 / old.1)
    else (h.getD 0, w.getD 0)

/-! ### transforms.EvenOddDecomposition (dvw/core/transforms.py)

`transform` returns `(domain[::2], domain[1::2])`; `restore` runs
`np.vstack((even, odd)).ravel(order="F")`.  `np.vstack` demands both rows have
the same length, so `restore` raises when they differ (odd-length input). -/

mutual

/-- `domain[::2]`: the even-indexed elements. -/
def evenIdx {α : Type} : List α → List α
  | [] => []
  | a :: rest => a :: oddIdx rest

/-- `domain[1::2]`: the odd-indexed elements. -/
def oddIdx {α : Type} : List α → List α
  | [] => []
  | _ :: rest => evenIdx rest

end

/-- Embedding of `EvenOddDecomposition.transform`. -/
def evenOddTransform {α : Type} (l : List α) : List α × List α :=
  (evenIdx l, oddIdx l)

/-- Embedding of `EvenOddDecomposition.restore`:
`np.vstack((even, odd)).ravel(order="F")` interleaves the two rows
column-by-column; `np.vstack` raises (`none`) unless the rows have equal
length. -/
def evenOddRestore {α : Type} (p : List α × List α) : Option (List α) :=
  if p.1.length = p.2.length then
    some ((p.1.zip p.2).flatMap (fun q => [q.1, q.2]))
  else none

/-! ### methods.MeanOverWindowEdgesBitManipulator.extract (dvw/core/methods.py)

The source computes `avg = 0.5 * (window[0] + window[-1])` and then loops
`for i in range(1, len(window))`, accumulating `bit2sign(window[i] > avg)`,
returning `int(cnt >= 0)`.  Note the loop upper bound: it is `len(window)`,
so the *last* position participates in the vote. -/

/-- `bit2sign` from `dvw/core/util/util.py`: `1 if b else -1`. -/
def bit2sign (b : Bool) : Int :=
  if b then 1 else -1

/-- Embedding of `MeanOverWindowEdgesBitManipulator.extract` (the code as
written: votes are accumulated for indices `1, …, len-1`, i.e. every position
except the first). -/
def moweExtract (w : List ℚ) : Nat :=
  let avg : ℚ := (1 / 2) * (w.getD 0 0 + w.getD (w.length - 1) 0)
  let cnt : Int :=
    ((List.range' 1 (w.length - 1)).map (fun i => bit2sign (avg < w.getD i 0))).sum
  if 0 ≤ cnt then 1 else 0

/-- The behaviour claimed by the spec sentence: votes are accumulated over the
*interior* positions only (`1, …, len-2`), both edges excluded. -/
def moweExtractInteriorOnly (w : List ℚ) : Nat :=
  let avg : ℚ := (1 / 2) * (w.getD 0 0 + w.getD (w.length - 1) 0)
  let cnt : Int :=
    ((List.range' 1 (w.length - 2)).map (fun i => bit2sign (avg < w.getD i 0))).sum
  if 0 ≤ cnt then 1 else 0

/-- The same extraction written structurally: every position after the first
(`w.drop 1`, i.e. interior positions plus the trailing edge) votes against the
edge average. -/
def moweExtractAllButFirst (w : List ℚ) : Nat :=
  let avg : ℚ := (1 / 2) * (w.headD 0 + w.getLastD 0)
  let cnt : Int := ((w.drop 1).map (fun x => bit2sign (avg < x))).sum
  if 0 ≤ cnt then 1 else 0

/-! ### Supporting lemmas -/

theorem getD_length_sub_one {α : Type} (d : α) :
    ∀ (l : List α), l ≠ [] → l.getD (l.length - 1) d = l.getLastD d
  | [], h => absurd rfl h
  | [a], _ => rfl
  | a :: b :: r, _ => by
    have ih := getD_length_sub_one d (b :: r) (by simp)
    simpa [List.getD_cons_succ, List.getLastD] using ih

theorem range'_map_getD {β : Type} (g : ℚ → β) :
    ∀ (suf pre : List ℚ),
      (List.range' pre.length suf.length).map (fun i => g ((pre ++ suf).getD i 0))
        = suf.map g
  | [], _ => by simp
  | s :: rest, pre => by
    have ih := range'_map_getD g rest (pre ++ [s])
    simp only [List.length_cons, List.range'_succ, List.map_cons, List.map_map]
    have hhd : (pre ++ s :: rest).getD pre.length 0 = s := by
      rw [List.getD_eq_getElem?_getD, List.getElem?_append_right (Nat.le_refl _)]
      simp
    have hl : pre ++ s :: rest = (pre ++ [s]) ++ rest := by simp
    have hlen : pre.length + 1 = (pre ++ [s]).length := by simp
    rw [hhd, hl, hlen, ih]

/-! ### Claim theorems: C8, C9, C4 -/

/-- Claim C8: `shape2shape` returns the worked examples of the spec, returns
an explicit `(height, width)` pair unchanged, computes one unset dimension
from the other by aspect-preserving integer division, and returns the old
shape when no override is given. -/
theorem c8_shape2shape (hv wv : Nat) (hh : hv ≠ 0) (hw : wv ≠ 0) (old : Nat × Nat) :
    shape2shape (480, 640) .noOverride = (480, 640)
      ∧ shape2shape (480, 640) (.pair (some 240) none) = (240, 320)
      ∧ shape2shape (480, 640) .swap = (640, 480)
      ∧ shape2shape old (.pair (some hv) (some wv)) = (hv, wv)
      ∧ shape2shape old (.pair none (some wv)) = (wv * old.1 / old.2, wv)
      ∧ shape2shape old (.pair (some hv) none) = (hv, hv * old.2 / old.1)
      ∧ shape2shape old .noOverride = old := by
  refine ⟨by decide, by decide, by decide, ?_, ?_, ?_, rfl⟩ <;>
    simp [shape2shape, dimFalsy, hh, hw]

/-- Claim C8 witness: the general clauses evaluated at a concrete shape. -/
theorem c8_shape2shape_witness :
    shape2shape (480, 640) .noOverride = (480, 640)
      ∧ shape2shape (480, 640) (.pair (some 240) none) = (240, 320)
      ∧ shape2shape (480, 640) .swap = (640, 480)
      ∧ shape2shape (100, 200) (.pair (some 30) (some 40)) = (30, 40)
      ∧ shape2shape (100, 200) (.pair none (some 40)) = (40 * 100 / 200, 40)
      ∧ shape2shape (100, 200) (.pair (some 30) none) = (30, 30 * 200 / 100)
      ∧ shape2shape (100, 200) .noOverride = (100, 200) :=
  c8_shape2shape 30 40 (by decide) (by decide) (100, 200)

/-- Claim C9 counterexample: on the odd-length sequence `[0, 1, 2]` the
even/odd halves have different lengths, so `np.vstack` raises and `restore`
does not return the original sequence. -/
theorem c9_counterexample :
    evenOddRestore (evenOddTransform ([0, 1, 2] : List Int)) ≠ some [0, 1, 2] := by
  decide

/-- Claim C9 (amended): for every sequence of even length,
`restore (transform s)` interleaves the even- and odd-indexed halves back to
exactly `s`; for odd lengths `np.vstack` raises instead. -/
theorem c9_even_odd_round_trip {α : Type} :
    ∀ (l : List α), l.length % 2 = 0 →
      evenOddRestore (evenOddTransform l) = some l
  | [], _ => by simp [evenOddTransform, evenIdx, oddIdx, evenOddRestore]
  | [a], h => by simp at h
  | a :: b :: rest, h => by
    have ih := c9_even_odd_round_trip rest (by
      simp only [List.length_cons] at h; omega)
    simp only [evenOddTransform, evenIdx, oddIdx, evenOddRestore] at ih ⊢
    by_cases hl : (evenIdx rest).length = (oddIdx rest).length
    · simp only [hl, if_true] at ih
      simp only [List.length_cons, hl, if_true, List.zip_cons_cons, List.flatMap_cons]
      simpa using ih
    · simp [hl] at ih

/-- Claim C9 witness: the amended round trip at the concrete even-length
sequence `[3, 1, 4, 1]`. -/
theorem c9_even_odd_round_trip_witness :
    evenOddRestore (evenOddTransform ([3, 1, 4, 1] : List Int)) = some [3, 1, 4, 1] :=
  c9_even_odd_round_trip [3, 1, 4, 1] (by decide)

/-- Claim C4 counterexample: on the window `[0, -1, 10]` the code's extract
(voting over indices `1` and `2`) returns `1`, while the claimed
interior-only extract (voting over index `1` alone) returns `0`. -/
theorem c4_counterexample :
    moweExtract [0, -1, 10] = 1 ∧ moweExtractInteriorOnly [0, -1, 10] = 0 := by
  constructor <;> norm_num [moweExtract, moweExtractInteriorOnly, List.range',
    bit2sign]

/-- Claim C4 (amended): `MeanOverWindowEdges` extraction computes
`avg = 0.5 * (window[0] + window[last])` and accumulates
`sign(window[i] > avg)` over every position except the first — the interior
positions *and* the trailing edge — returning `1` iff the sum is `≥ 0`. -/
theorem c4_mowe_extract_all_but_first (w : List ℚ) :
    moweExtract w = moweExtractAllButFirst w := by
  match w with
  | [] => rfl
  | x :: rest =>
    simp only [moweExtract, moweExtractAllButFirst]
    have havg : (x :: rest).getD ((x :: rest).length - 1) 0 = (x :: rest).getLastD 0 :=
      getD_length_sub_one 0 (x :: rest) (by simp)
    simp only [List.length_cons, Nat.add_sub_cancel] at havg
    have hsum := range'_map_getD
      (fun v => bit2sign ((1 / 2) * (x + (x :: rest).getLastD 0) < v)) rest [x]
    simp only [List.length_singleton, List.singleton_append] at hsum
    simp only [List.length_cons, Nat.add_sub_cancel, List.getD_cons_zero, havg,
      List.headD_cons, List.drop_one, List.tail_cons]
    rw [hsum]

/-! ### methods.RobustnessEmphasis (dvw/core/methods.py)

`embed` reads one bit and embeds it into every group of the list; `extract`
extracts one bit per group, sums them, writes `int(cnt > len(domains) // 2)`
and returns `1`. -/

/-- Embedding of `RobustnessEmphasis.embed`: the reader is the list of bits
still available, `read_bit` takes its head (an exhausted reader raises,
modelled by `none`).  Returns the embedded groups, the remaining reader bits
and the count `1`. -/
def robustnessEmbed {D : Type} (manip : D → Nat → D) (domains : List D)
    (reader : List Nat) : Option (List D × List Nat × Nat) :=
  match reader with
  | [] => none
  | b :: rest => some (domains.map (fun d => manip d b), rest, 1)

/-- Embedding of `RobustnessEmphasis.extract`: returns the bit written to the
watermark writer together with the returned count `1`. -/
def robustnessExtract {D : Type} (manipE : D → Nat) (domains : List D) : Nat × Nat :=
  let cnt := (domains.map manipE).sum
  (if cnt > domains.length / 2 then 1 else 0, 1)

/-- A list of bits sums to its number of ones. -/
theorem sum_eq_count_one : ∀ (xs : List Nat), (∀ x ∈ xs, x ≤ 1) →
    xs.sum = xs.count 1
  | [], _ => rfl
  | x :: rest, h => by
    have hx : x ≤ 1 := h x (by simp)
    have ih := sum_eq_count_one rest (fun y hy => h y (by simp [hy]))
    interval_cases x <;> simp [List.count_cons, ih, Nat.add_comm]

/-- A list of bits is partitioned by its zeros and ones. -/
theorem count_zero_add_count_one : ∀ (xs : List Nat), (∀ x ∈ xs, x ≤ 1) →
    xs.count 0 + xs.count 1 = xs.length
  | [], _ => rfl
  | x :: rest, h => by
    have hx : x ≤ 1 := h x (by simp)
    have ih := count_zero_add_count_one rest (fun y hy => h y (by simp [hy]))
    interval_cases x <;> (simp [List.count_cons]; omega)

/-- Claim C3: `RobustnessEmphasis.embed` reads exactly one bit, embeds that
same bit into every group, and returns count `1`; `extract` majority-votes
the per-group extraction results `xs`, so when at most `⌊(n−1)/2⌋` of the `n`
per-group results are flipped away from the embedded bit `b`, the voted bit
still equals `b`, for both bit values. -/
theorem c3_robustness_emphasis {D : Type} (manip : D → Nat → D)
    (domains : List D) (reader : List Nat) (b : Nat) (xs : List Nat)
    (hb : b ≤ 1) (hxs : ∀ x ∈ xs, x ≤ 1) (hn : 0 < xs.length)
    (hflip : xs.count (1 - b) ≤ (xs.length - 1) / 2) :
    robustnessEmbed manip domains (b :: reader)
        = some (domains.map (fun d => manip d b), reader, 1)
      ∧ (robustnessExtract id xs).1 = b
      ∧ (robustnessExtract id xs).2 = 1 := by
  refine ⟨rfl, ?_, rfl⟩
  have h1 := sum_eq_count_one xs hxs
  have h2 := count_zero_add_count_one xs hxs
  simp only [robustnessExtract, List.map_id]
  interval_cases b
  · have hno : ¬ xs.sum > xs.length / 2 := by
      simp only [Nat.sub_zero] at hflip; omega
    simp [hno]
  · have hyes : xs.sum > xs.length / 2 := by
      simp only [Nat.sub_self] at hflip; omega
    simp [hyes]

/-- Claim C3 witness: three groups with one flipped extraction still recover
the embedded bit `1`. -/
theorem c3_robustness_emphasis_witness :
    robustnessEmbed (fun (d : Nat) _ => d) [5] [1, 0]
        = some ([5].map (fun d => (fun (d : Nat) _ => d) d 1), [0], 1)
      ∧ (robustnessExtract id [1, 0, 1]).1 = 1
      ∧ (robustnessExtract id [1, 0, 1]).2 = 1 :=
  c3_robustness_emphasis (fun (d : Nat) _ => d) [5] [0] 1 [1, 0, 1]
    (by decide) (by decide) (by decide) (by decide)

/-! ### core.ExtractingStatistics and the extraction loop (dvw/core/core.py)

`_stream2watermark` starts from `ExtractingStatistics(quantity)` and, while
frames remain and `left > 0`, runs the method on one frame, adding the
returned amount to `extracted` and subtracting it from `left`.  The method is
`CapacityEmphasis.extract`, which extracts one bit per group but never more
than `quantity`. -/

/-- Per-run extraction statistics: `left` bits still requested, `extracted`
bits recovered (timestamps omitted — wall-clock time is outside the model). -/
structure ExtractingStatistics where
  left : Int
  extracted : Int
deriving DecidableEq, Repr

/-- The `total` property: `left + extracted`. -/
def statsTotal (s : ExtractingStatistics) : Int :=
  s.left + s.extracted

/-- The `full_watermark` property: Python `not self.left`. -/
def fullWatermark (s : ExtractingStatistics) : Bool :=
  s.left == 0

/-- Embedding of `CapacityEmphasis.extract`: walks the groups, stopping once
`quantity < 1`; returns the bits written and the extracted count. -/
def capacityExtract {D : Type} (manip : D → Nat) : List D → Int → List Nat × Int
  | [], _ => ([], 0)
  | d :: rest, quantity =>
    if quantity < 1 then ([], 0)
    else
      let bit := manip d
      let p := capacityExtract manip rest (quantity - 1)
      (bit :: p.1, p.2 + 1)

/-- Embedding of the `_stream2watermark` frame loop: each frame is a list of
groups handed to `CapacityEmphasis.extract` with the current `left`; the
returned trace holds the statistics after every frame step. -/
def extractSteps {D : Type} (manip : D → Nat) :
    List (List D) → ExtractingStatistics → List ExtractingStatistics
  | [], _ => []
  | f :: rest, s =>
    if s.left > 0 then
      let a := (capacityExtract manip f s.left).2
      let s2 : ExtractingStatistics := ⟨s.left - a, s.extracted + a⟩
      s2 :: extractSteps manip rest s2
    else []

/-- `CapacityEmphasis.extract` returns a non-negative amount that never
exceeds the requested quantity. -/
theorem capacityExtract_bounds {D : Type} (manip : D → Nat) :
    ∀ (ds : List D) (q : Int),
      0 ≤ (capacityExtract manip ds q).2 ∧ (capacityExtract manip ds q).2 ≤ max q 0
  | [], q => by simp [capacityExtract, le_max_iff]
  | d :: rest, q => by
    have ih := capacityExtract_bounds manip rest (q - 1)
    simp only [capacityExtract]
    split
    · simp [le_max_iff]
    · rename_i hq
      push_neg at hq
      constructor
      · omega
      · have := ih.2
        simp only [max_def] at this ⊢
        split at this <;> split <;> omega

/-- The loop invariant behind claim C6, generalized over the starting
statistics. -/
theorem extractSteps_invariant {D : Type} (manip : D → Nat) (q : Int) :
    ∀ (frames : List (List D)) (s0 : ExtractingStatistics),
      statsTotal s0 = q → 0 ≤ s0.left →
      ∀ s ∈ extractSteps manip frames s0,
        statsTotal s = q ∧ 0 ≤ s.left
  | [], _, _, _, s, hs => by simp [extractSteps] at hs
  | f :: rest, s0, htot, hleft, s, hs => by
    simp only [extractSteps] at hs
    split at hs
    · rename_i hpos
      obtain ⟨hb1, hb2⟩ := capacityExtract_bounds manip f s0.left
      simp only [List.mem_cons] at hs
      rcases hs with rfl | hs
      · constructor
        · simp only [statsTotal] at htot ⊢; omega
        · dsimp only; simp only [max_def] at hb2; split at hb2 <;> omega
      · refine extractSteps_invariant manip q rest _ ?_ ?_ s hs
        · simp only [statsTotal] at htot ⊢; omega
        · dsimp only; simp only [max_def] at hb2; split at hb2 <;> omega
    · simp at hs

/-- Claim C6: throughout an extraction run with requested quantity `Q ≥ 0`,
after every frame step the statistics satisfy `left + extracted = Q` (so
`total` always equals `Q`) and `left ≥ 0`, and `full_watermark` holds iff
`left = 0`. -/
theorem c6_extracting_statistics {D : Type} (manip : D → Nat)
    (frames : List (List D)) (q : Int) (hq : 0 ≤ q)
    (s : ExtractingStatistics) (hs : s ∈ extractSteps manip frames ⟨q, 0⟩) :
    statsTotal s = q ∧ 0 ≤ s.left ∧ (fullWatermark s = true ↔ s.left = 0) := by
  have h := extractSteps_invariant manip q frames ⟨q, 0⟩ (by simp [statsTotal]) hq s hs
  exact ⟨h.1, h.2, by simp [fullWatermark]⟩

/-- Claim C6 witness: one frame with two groups and requested quantity `1`
ends with `left = 0`, `extracted = 1`. -/
theorem c6_extracting_statistics_witness :
    statsTotal ⟨0, 1⟩ = 1 ∧ 0 ≤ (ExtractingStatistics.mk 0 1).left
      ∧ (fullWatermark ⟨0, 1⟩ = true ↔ (ExtractingStatistics.mk 0 1).left = 0) :=
  c6_extracting_statistics (fun (_ : Nat) => 1) [[7, 8]] 1 (by decide)
    ⟨0, 1⟩ (by decide)

/-! ### io.watermark.BitFileWriter / BitFileReader (dvw/core/io/watermark.py)

`BitFileWriter.write_bit` ors `bit << current` into a one-byte buffer and
emits the byte once `current > 7`; `flush()` only flushes the file, so a
pending partial byte is discarded.  `BitFileReader` reads byte-granularly:
`available()` refills on byte boundaries and is false only at end of file;
`read_bit` returns `buffer & 1` then shifts right, so each byte yields its 8
bits LSB-first. -/

/-- Embedding of the `BitFileWriter.write_bit` loop over a list of bits,
carrying the `buffer` and `current` fields; emitted bytes are returned in
file order, and the pending partial byte is dropped at the end (`flush`
writes nothing). -/
def writeBits : List Nat → Nat → Nat → List Nat
  | [], _, _ => []
  | bit :: rest, buffer, current =>
    if current + 1 > 7 then (buffer ||| (bit <<< current)) :: writeBits rest 0 0
    else writeBits rest (buffer ||| (bit <<< current)) (current + 1)

/-- The bytes a `BitFileWriter` durably writes for a bit sequence. -/
def bitFileWriterBytes (bits : List Nat) : List Nat :=
  writeBits bits 0 0

/-- Eight `read_bit` calls on one buffered byte: `buffer & 1` then
`buffer >>= 1`, repeated. -/
def drainByte : Nat → Nat → List Nat
  | 0, _ => []
  | n + 1, buf => (buf &&& 1) :: drainByte n (buf >>> 1)

/-- Embedding of the `while available(): read_bit()` loop of `BitFileReader`:
every stored byte is consumed whole, LSB-first, and `available()` turns false
exactly at end of file. -/
def bitFileRead (bytes : List Nat) : List Nat :=
  bytes.foldr (fun b acc => drainByte 8 b ++ acc) []

/-- The numeric value of a pending-bit list, LSB first (the writer buffer). -/
def bitsVal : List Nat → Nat
  | [] => 0
  | b :: rest => b + 2 * bitsVal rest

theorem bitsVal_append : ∀ (p : List Nat) (b : Nat),
    bitsVal (p ++ [b]) = bitsVal p + b * 2 ^ p.length
  | [], b => by simp [bitsVal]
  | x :: rest, b => by
    have ih := bitsVal_append rest b
    show bitsVal (x :: (rest ++ [b])) = bitsVal (x :: rest) + b * 2 ^ (x :: rest).length
    simp only [bitsVal, ih, List.length_cons, pow_succ]
    ring

theorem bitsVal_lt : ∀ (p : List Nat), (∀ x ∈ p, x ≤ 1) →
    bitsVal p < 2 ^ p.length
  | [], _ => by simp [bitsVal]
  | x :: rest, h => by
    have hx : x ≤ 1 := h x (by simp)
    have ih := bitsVal_lt rest (fun y hy => h y (by simp [hy]))
    simp only [bitsVal, List.length_cons, pow_succ]
    omega

theorem bitsVal_lor_shift : ∀ (p : List Nat) (b : Nat), (∀ x ∈ p, x ≤ 1) →
    bitsVal p ||| (b <<< p.length) = bitsVal p + b * 2 ^ p.length
  | [], b, _ => by simp [bitsVal, Nat.shiftLeft_eq]
  | x :: rest, b, h => by
    have hx : x ≤ 1 := h x (by simp)
    have ih := bitsVal_lor_shift rest b (fun y hy => h y (by simp [hy]))
    have hbit1 : bitsVal (x :: rest) = Nat.bit (x == 1) (bitsVal rest) := by
      rw [Nat.bit_val]
      interval_cases x <;> simp [bitsVal] <;> omega
    have hbit2 : b <<< (x :: rest).length = Nat.bit false (b <<< rest.length) := by
      rw [Nat.bit_val]
      simp [Nat.shiftLeft_eq, pow_succ]
      ring
    rw [hbit1, hbit2, Nat.lor_bit, ih, Nat.bit_val, Nat.bit_val, Bool.or_false,
      List.length_cons, pow_succ]
    ring

theorem drainByte_bitsVal : ∀ (p : List Nat), (∀ x ∈ p, x ≤ 1) →
    drainByte p.length (bitsVal p) = p
  | [], _ => rfl
  | x :: rest, h => by
    have hx : x ≤ 1 := h x (by simp)
    have ih := drainByte_bitsVal rest (fun y hy => h y (by simp [hy]))
    have h1 : (x + 2 * bitsVal rest) % 2 = x := by omega
    have h2 : (x + 2 * bitsVal rest) / 2 = bitsVal rest := by omega
    simp only [List.length_cons, drainByte, bitsVal, Nat.and_one_is_mod,
      Nat.shiftRight_one, h1, h2, ih]

theorem bitFileRead_cons (b : Nat) (bs : List Nat) :
    bitFileRead (b :: bs) = drainByte 8 b ++ bitFileRead bs := rfl

/-- The writer/reader round trip generalized over a pending buffer holding
the bits `p` (with `current = p.length < 8`). -/
theorem writeBits_read : ∀ (bits p : List Nat),
    (∀ b ∈ bits, b ≤ 1) → (∀ x ∈ p, x ≤ 1) → p.length ≤ 7 →
    bitFileRead (writeBits bits (bitsVal p) p.length)
      = (p ++ bits).take (8 * ((p.length + bits.length) / 8))
  | [], p, _, hp, hlen => by
    have h0 : p.length / 8 = 0 := by omega
    simp [writeBits, bitFileRead, h0]
  | bit :: rest, p, hb, hp, hlen => by
    have hbit : bit ≤ 1 := hb bit (by simp)
    have hrest : ∀ b ∈ rest, b ≤ 1 := fun y hy => hb y (by simp [hy])
    have hpb : ∀ x ∈ p ++ [bit], x ≤ 1 := by
      intro x hx
      rcases List.mem_append.mp hx with h | h
      · exact hp x h
      · simp at h; omega
    have hlor := bitsVal_lor_shift p bit hp
    have happ := bitsVal_append p bit
    simp only [writeBits, hlor, ← happ]
    by_cases hc : p.length + 1 > 7
    · have hp7 : p.length = 7 := by omega
      have hL8 : (p ++ [bit]).length = 8 := by simp [hp7]
      have ih := writeBits_read rest [] hrest (by simp) (by simp)
      simp only [bitsVal, List.length_nil] at ih
      have hdrain : drainByte 8 (bitsVal (p ++ [bit])) = p ++ [bit] := by
        have hd := drainByte_bitsVal (p ++ [bit]) hpb
        rwa [hL8] at hd
      rw [if_pos hc, bitFileRead_cons, hdrain, ih]
      have hsplit : p ++ bit :: rest = (p ++ [bit]) ++ rest := by simp
      have harith : 8 * ((p.length + (bit :: rest).length) / 8)
          = (p ++ [bit]).length + 8 * ((0 + rest.length) / 8) := by
        simp only [List.length_cons, hL8, hp7]; omega
      rw [hsplit, harith, List.take_append]
      simp
    · have hle : (p ++ [bit]).length ≤ 7 := by simp; omega
      have ih := writeBits_read rest (p ++ [bit]) hrest hpb hle
      have hL : (p ++ [bit]).length = p.length + 1 := by simp
      rw [if_neg hc, ← hL, ih]
      have h1 : (p ++ [bit]).length + rest.length = p.length + (bit :: rest).length := by
        simp only [List.length_append, List.length_singleton, List.length_cons,
          List.length_nil]
        omega
      rw [h1, List.append_assoc, List.singleton_append]

/-- Claim C2: writing `N` bits with `BitFileWriter` (then `flush`) and
reading the bytes back with `BitFileReader` yields exactly the first
`8 * ⌊N/8⌋` bits, LSB-first within each byte: a trailing partial byte is
discarded at flush, and when `N` is a multiple of `8` the full sequence
round-trips. -/
theorem c2_bit_file_round_trip (bits : List Nat) (h : ∀ b ∈ bits, b ≤ 1) :
    bitFileRead (bitFileWriterBytes bits) = bits.take (8 * (bits.length / 8)) := by
  have hw := writeBits_read bits [] h (by simp) (by simp)
  simpa [bitFileWriterBytes, bitsVal] using hw

/-- Claim C2 witness: nine bits round-trip to their first eight. -/
theorem c2_bit_file_round_trip_witness :
    bitFileRead (bitFileWriterBytes [1, 0, 1, 1, 0, 0, 1, 0, 1])
      = [1, 0, 1, 1, 0, 0, 1, 0] := by
  have h := c2_bit_file_round_trip [1, 0, 1, 1, 0, 0, 1, 0, 1] (by decide)
  simpa using h

/-! ### methods.WindowMedianBitManipulator (dvw/core/methods.py)

`embed` finds `imin = argmin`, `imax = argmax` (first occurrences, numpy
semantics) and overwrites every other position with `window[imax]` if the bit
is set, else `window[imin]`; the extremal positions themselves are never
written, so the values read during the loop are the original extrema.
`extract` recomputes `imin`/`imax`, sets `mid = (window[imin]+window[imax])/2`
and over every non-extremal position accumulates `bit2sign(x >= mid)`,
returning `int(cnt >= 0)`. -/

/-- `np.min` of a non-empty window (`0` for the empty list, which numpy
rejects). -/
def listMin : List ℚ → ℚ
  | [] => 0
  | a :: rest => rest.foldl min a

/-- `np.max` of a non-empty window. -/
def listMax : List ℚ → ℚ
  | [] => 0
  | a :: rest => rest.foldl max a

/-- `np.argmin`: index of the first occurrence of the minimum. -/
def argminL (w : List ℚ) : Nat :=
  w.indexOf (listMin w)

/-- `np.argmax`: index of the first occurrence of the maximum. -/
def argmaxL (w : List ℚ) : Nat :=
  w.indexOf (listMax w)

/-- The `embed` loop: walking the window with its index, every position other
than `imin`/`imax` is overwritten with `v`. -/
def setNonExtremal (imin imax : Nat) (v : ℚ) : Nat → List ℚ → List ℚ
  | _, [] => []
  | i, x :: rest =>
    (if i = imin ∨ i = imax then x else v) :: setNonExtremal imin imax v (i + 1) rest

/-- Embedding of `WindowMedianBitManipulator.embed` (Python truthiness:
`window[imax] if bit else window[imin]`). -/
def wmEmbed (w : List ℚ) (bit : Nat) : List ℚ :=
  setNonExtremal (argminL w) (argmaxL w)
    (if bit ≠ 0 then w.getD (argmaxL w) 0 else w.getD (argminL w) 0) 0 w

/-- The `extract` vote loop: positions other than `imin`/`imax` contribute
`bit2sign(x ≥ mid)`. -/
def voteFrom (imin imax : Nat) (mid : ℚ) : Nat → List ℚ → Int
  | _, [] => 0
  | i, x :: rest =>
    (if i = imin ∨ i = imax then 0 else bit2sign (mid ≤ x))
      + voteFrom imin imax mid (i + 1) rest

/-- Embedding of `WindowMedianBitManipulator.extract`. -/
def wmExtract (w : List ℚ) : Nat :=
  let imin := argminL w
  let imax := argmaxL w
  let mid := (w.getD imin 0 + w.getD imax 0) / 2
  if 0 ≤ voteFrom imin imax mid 0 w then 1 else 0

/-! #### Minimum/maximum folds -/

theorem foldl_min_le_init : ∀ (r : List ℚ) (a : ℚ), r.foldl min a ≤ a
  | [], a => le_refl a
  | x :: rest, a =>
    le_trans (foldl_min_le_init rest (min a x)) (min_le_left a x)

theorem foldl_min_le_mem : ∀ (r : List ℚ) (a x : ℚ), x ∈ r → r.foldl min a ≤ x
  | x0 :: rest, a, x, hx => by
    rcases List.mem_cons.mp hx with rfl | h
    · exact le_trans (foldl_min_le_init rest (min a x)) (min_le_right a x)
    · exact foldl_min_le_mem rest (min a x0) x h

theorem foldl_min_mem : ∀ (r : List ℚ) (a : ℚ), r.foldl min a = a ∨ r.foldl min a ∈ r
  | [], _ => Or.inl rfl
  | x :: rest, a => by
    rcases foldl_min_mem rest (min a x) with h | h
    · rcases min_choice a x with hm | hm
      · exact Or.inl (by rw [List.foldl_cons, h, hm])
      · exact Or.inr (by rw [List.foldl_cons, h, hm]; exact List.mem_cons_self x rest)
    · exact Or.inr (List.mem_cons_of_mem x h)

theorem foldl_max_ge_init : ∀ (r : List ℚ) (a : ℚ), a ≤ r.foldl max a
  | [], a => le_refl a
  | x :: rest, a =>
    le_trans (le_max_left a x) (foldl_max_ge_init rest (max a x))

theorem foldl_max_ge_mem : ∀ (r : List ℚ) (a x : ℚ), x ∈ r → x ≤ r.foldl max a
  | x0 :: rest, a, x, hx => by
    rcases List.mem_cons.mp hx with rfl | h
    · exact le_trans (le_max_right a x) (foldl_max_ge_init rest (max a x))
    · exact foldl_max_ge_mem rest (max a x0) x h

theorem foldl_max_mem : ∀ (r : List ℚ) (a : ℚ), r.foldl max a = a ∨ r.foldl max a ∈ r
  | [], _ => Or.inl rfl
  | x :: rest, a => by
    rcases foldl_max_mem rest (max a x) with h | h
    · rcases max_choice a x with hm | hm
      · exact Or.inl (by rw [List.foldl_cons, h, hm])
      · exact Or.inr (by rw [List.foldl_cons, h, hm]; exact List.mem_cons_self x rest)
    · exact Or.inr (List.mem_cons_of_mem x h)

theorem listMin_le (w : List ℚ) (x : ℚ) (hx : x ∈ w) : listMin w ≤ x := by
  match w with
  | a :: rest =>
    rcases List.mem_cons.mp hx with rfl | h
    · exact foldl_min_le_init rest x
    · exact foldl_min_le_mem rest a x h

theorem listMin_mem (w : List ℚ) (hne : w ≠ []) : listMin w ∈ w := by
  match w with
  | a :: rest =>
    simp only [listMin]
    rcases foldl_min_mem rest a with h | h
    · rw [h]; exact List.mem_cons_self a rest
    · exact List.mem_cons_of_mem a h

theorem le_listMax (w : List ℚ) (x : ℚ) (hx : x ∈ w) : x ≤ listMax w := by
  match w with
  | a :: rest =>
    rcases List.mem_cons.mp hx with rfl | h
    · exact foldl_max_ge_init rest x
    · exact foldl_max_ge_mem rest a x h

theorem listMax_mem (w : List ℚ) (hne : w ≠ []) : listMax w ∈ w := by
  match w with
  | a :: rest =>
    simp only [listMax]
    rcases foldl_max_mem rest a with h | h
    · rw [h]; exact List.mem_cons_self a rest
    · exact List.mem_cons_of_mem a h

theorem listMin_eq_of (w : List ℚ) (a : ℚ) (ha : a ∈ w) (hall : ∀ x ∈ w, a ≤ x) :
    listMin w = a :=
  le_antisymm (listMin_le w a ha)
    (hall _ (listMin_mem w (List.ne_nil_of_mem ha)))

theorem listMax_eq_of (w : List ℚ) (a : ℚ) (ha : a ∈ w) (hall : ∀ x ∈ w, x ≤ a) :
    listMax w = a :=
  le_antisymm (hall _ (listMax_mem w (List.ne_nil_of_mem ha)))
    (le_listMax w a ha)

/-! #### getD / indexOf bookkeeping -/

theorem getD_of_lt (l : List ℚ) (n : Nat) (d : ℚ) (h : n < l.length) :
    l.getD n d = l[n] := by
  rw [List.getD_eq_getElem?_getD, List.getElem?_eq_getElem h]
  rfl

theorem getD_mem (l : List ℚ) (n : Nat) (h : n < l.length) : l.getD n 0 ∈ l := by
  rw [getD_of_lt l n 0 h]
  exact List.getElem_mem h

theorem exists_getD_of_mem (l : List ℚ) (x : ℚ) (hx : x ∈ l) :
    ∃ j, j < l.length ∧ l.getD j 0 = x := by
  obtain ⟨i, hi, he⟩ := List.mem_iff_getElem.mp hx
  exact ⟨i, hi, by rw [getD_of_lt l i 0 hi, he]⟩

theorem indexOf_lt (l : List ℚ) (a : ℚ) (ha : a ∈ l) : l.indexOf a < l.length :=
  List.indexOf_lt_length.mpr ha

theorem getD_indexOf_self (l : List ℚ) (a : ℚ) (ha : a ∈ l) :
    l.getD (l.indexOf a) 0 = a := by
  rw [getD_of_lt l _ 0 (indexOf_lt l a ha)]
  exact List.getElem_indexOf (indexOf_lt l a ha)

theorem indexOf_eq_of_getD : ∀ (l : List ℚ) (a : ℚ) (n : Nat),
    n < l.length → l.getD n 0 = a → (∀ j, j < n → l.getD j 0 ≠ a) →
    l.indexOf a = n
  | x :: rest, a, 0, _, hget, _ => by
    simp only [List.getD_cons_zero] at hget
    exact hget ▸ List.indexOf_cons_self x rest
  | x :: rest, a, m + 1, hlt, hget, hne => by
    have hx : x ≠ a := by
      have := hne 0 (Nat.succ_pos m)
      simpa using this
    have ih := indexOf_eq_of_getD rest a m (by simpa using hlt)
      (by simpa using hget)
      (fun j hj => by
        have := hne (j + 1) (by omega)
        simpa using this)
    rw [List.indexOf_cons_ne rest hx, ih]

/-! #### The embed loop, pointwise -/

theorem setNonExtremal_length (imin imax : Nat) (v : ℚ) :
    ∀ (l : List ℚ) (i : Nat), (setNonExtremal imin imax v i l).length = l.length
  | [], _ => rfl
  | x :: rest, i => by
    simp [setNonExtremal, setNonExtremal_length imin imax v rest (i + 1)]

theorem setNonExtremal_getD (imin imax : Nat) (v : ℚ) :
    ∀ (l : List ℚ) (i j : Nat),
      (setNonExtremal imin imax v i l).getD j 0
        = if j < l.length then
            (if i + j = imin ∨ i + j = imax then l.getD j 0 else v)
          else 0
  | [], i, j => by simp [setNonExtremal]
  | x :: rest, i, 0 => by simp [setNonExtremal]
  | x :: rest, i, j + 1 => by
    have ih := setNonExtremal_getD imin imax v rest (i + 1) j
    have hidx : i + 1 + j = i + (j + 1) := by omega
    rw [hidx] at ih
    simp only [setNonExtremal, List.getD_cons_succ, List.length_cons, ih]
    by_cases hj : j < rest.length
    · rw [if_pos hj, if_pos (by omega : j + 1 < rest.length + 1)]
    · rw [if_neg hj, if_neg (by omega : ¬ j + 1 < rest.length + 1)]

/-! #### The extract vote loop -/

theorem voteFrom_nonneg (imin imax : Nat) (mid : ℚ) :
    ∀ (l : List ℚ) (i : Nat),
      (∀ j, j < l.length → (i + j = imin ∨ i + j = imax) ∨ mid ≤ l.getD j 0) →
      0 ≤ voteFrom imin imax mid i l
  | [], _, _ => le_refl 0
  | x :: rest, i, h => by
    have ih := voteFrom_nonneg imin imax mid rest (i + 1) (fun j hj => by
      rcases h (j + 1) (by simpa using Nat.succ_lt_succ hj) with h1 | h1
      · left; omega
      · right; simpa using h1)
    have hterm : 0 ≤ (if i = imin ∨ i = imax then (0 : Int) else bit2sign (mid ≤ x)) := by
      rcases h 0 (by simp) with h1 | h1
      · simp only [Nat.add_zero] at h1
        rw [if_pos h1]
      · simp only [List.getD_cons_zero] at h1
        by_cases hi : i = imin ∨ i = imax
        · rw [if_pos hi]
        · rw [if_neg hi]
          simp [bit2sign, h1]
    exact add_nonneg hterm ih

theorem voteFrom_nonpos (imin imax : Nat) (mid : ℚ) :
    ∀ (l : List ℚ) (i : Nat),
      (∀ j, j < l.length → (i + j = imin ∨ i + j = imax) ∨ ¬ mid ≤ l.getD j 0) →
      voteFrom imin imax mid i l ≤ 0
  | [], _, _ => le_refl 0
  | x :: rest, i, h => by
    have ih := voteFrom_nonpos imin imax mid rest (i + 1) (fun j hj => by
      rcases h (j + 1) (by simpa using Nat.succ_lt_succ hj) with h1 | h1
      · left; omega
      · right; simpa using h1)
    have hterm : (if i = imin ∨ i = imax then (0 : Int) else bit2sign (mid ≤ x)) ≤ 0 := by
      rcases h 0 (by simp) with h1 | h1
      · simp only [Nat.add_zero] at h1
        rw [if_pos h1]
      · simp only [List.getD_cons_zero] at h1
        by_cases hi : i = imin ∨ i = imax
        · rw [if_pos hi]
        · rw [if_neg hi]
          simp [bit2sign, h1]
    exact add_nonpos hterm ih

theorem voteFrom_neg (imin imax : Nat) (mid : ℚ) :
    ∀ (l : List ℚ) (i : Nat),
      (∀ j, j < l.length → (i + j = imin ∨ i + j = imax) ∨ ¬ mid ≤ l.getD j 0) →
      (∃ j, j < l.length ∧ i + j ≠ imin ∧ i + j ≠ imax) →
      voteFrom imin imax mid i l ≤ -1
  | [], _, _, hex => by
    obtain ⟨j, hj, _⟩ := hex
    simp at hj
  | x :: rest, i, h, hex => by
    obtain ⟨j, hj, hj1, hj2⟩ := hex
    have hshift : ∀ j, j < rest.length →
        ((i + 1) + j = imin ∨ (i + 1) + j = imax) ∨ ¬ mid ≤ rest.getD j 0 :=
      fun k hk => by
        rcases h (k + 1) (by simpa using Nat.succ_lt_succ hk) with h1 | h1
        · left; omega
        · right; simpa using h1
    match j with
    | 0 =>
      simp only [Nat.add_zero] at hj1 hj2
      have hterm :
          (if i = imin ∨ i = imax then (0 : Int) else bit2sign (mid ≤ x)) = -1 := by
        rw [if_neg (by tauto)]
        rcases h 0 (by simp) with h1 | h1
        · simp only [Nat.add_zero] at h1; tauto
        · simp only [List.getD_cons_zero] at h1
          simp [bit2sign, h1]
      have ih := voteFrom_nonpos imin imax mid rest (i + 1) hshift
      simp only [voteFrom, hterm]
      omega
    | k + 1 =>
      have ih := voteFrom_neg imin imax mid rest (i + 1) hshift
        ⟨k, by simpa using hj, by omega, by omega⟩
      have hterm :
          (if i = imin ∨ i = imax then (0 : Int) else bit2sign (mid ≤ x)) ≤ 0 := by
        rcases h 0 (by simp) with h1 | h1
        · simp only [Nat.add_zero] at h1
          rw [if_pos h1]
        · simp only [List.getD_cons_zero] at h1
          by_cases hi : i = imin ∨ i = imax
          · rw [if_pos hi]
          · rw [if_neg hi]
            simp [bit2sign, h1]
      simp only [voteFrom]
      omega

/-- Among the first three indices there is one avoiding any two given
indices. -/
theorem exists_third (a b : Nat) : ∃ j, j < 3 ∧ j ≠ a ∧ j ≠ b := by
  by_cases h0 : 0 = a ∨ 0 = b
  · by_cases h1 : 1 = a ∨ 1 = b
    · exact ⟨2, by omega, by omega, by omega⟩
    · push_neg at h1
      exact ⟨1, by omega, h1.1, h1.2⟩
  · push_neg at h0
    exact ⟨0, by omega, h0.1, h0.2⟩

/-- Extraction on a window holding `m` at position `imin` and `M > m`
everywhere else yields `1`: every non-extremal position votes `+1`. -/
theorem wmExtract_eq_one_of (w1 : List ℚ) (m M : ℚ) (imin : Nat)
    (hlt : m < M) (himin : imin < w1.length) (hlen2 : 2 ≤ w1.length)
    (hget : ∀ j, j < w1.length → w1.getD j 0 = if j = imin then m else M) :
    wmExtract w1 = 1 := by
  have hMne : M ≠ m := ne_of_gt hlt
  have hmmem : m ∈ w1 := by
    have h := hget imin himin
    rw [if_pos rfl] at h
    rw [← h]
    exact getD_mem w1 imin himin
  obtain ⟨j0, hj0lt, hj0ne⟩ : ∃ j0, j0 < w1.length ∧ j0 ≠ imin := by
    by_cases h0 : imin = 0
    · exact ⟨1, by omega, by omega⟩
    · exact ⟨0, by omega, fun h => h0 h.symm⟩
  have hMmem : M ∈ w1 := by
    have h := hget j0 hj0lt
    rw [if_neg hj0ne] at h
    rw [← h]
    exact getD_mem w1 j0 hj0lt
  have hval : ∀ x ∈ w1, x = m ∨ x = M := by
    intro x hx
    obtain ⟨j, hj, hjx⟩ := exists_getD_of_mem w1 x hx
    rw [hget j hj] at hjx
    by_cases hji : j = imin
    · rw [if_pos hji] at hjx; exact Or.inl hjx.symm
    · rw [if_neg hji] at hjx; exact Or.inr hjx.symm
  have hminw : listMin w1 = m :=
    listMin_eq_of w1 m hmmem (fun x hx => by
      rcases hval x hx with rfl | rfl
      · exact le_refl x
      · exact hlt.le)
  have hmaxw : listMax w1 = M :=
    listMax_eq_of w1 M hMmem (fun x hx => by
      rcases hval x hx with rfl | rfl
      · exact hlt.le
      · exact le_refl x)
  have himin1 : argminL w1 = imin := by
    unfold argminL
    rw [hminw]
    refine indexOf_eq_of_getD w1 m imin himin ?_ ?_
    · rw [hget imin himin, if_pos rfl]
    · intro j hj
      rw [hget j (lt_trans hj himin), if_neg (by omega)]
      exact hMne
  have hgmax : w1.getD (argmaxL w1) 0 = M := by
    unfold argmaxL
    rw [hmaxw]
    exact getD_indexOf_self w1 M hMmem
  have hgmin : w1.getD imin 0 = m := by rw [hget imin himin, if_pos rfl]
  show (if 0 ≤ voteFrom (argminL w1) (argmaxL w1)
      ((w1.getD (argminL w1) 0 + w1.getD (argmaxL w1) 0) / 2) 0 w1 then 1 else 0) = 1
  rw [himin1, hgmin, hgmax]
  have hvotes : 0 ≤ voteFrom imin (argmaxL w1) ((m + M) / 2) 0 w1 := by
    refine voteFrom_nonneg imin (argmaxL w1) ((m + M) / 2) w1 0 (fun j hj => ?_)
    by_cases hji : 0 + j = imin ∨ 0 + j = argmaxL w1
    · exact Or.inl hji
    · refine Or.inr ?_
      push_neg at hji
      rw [hget j hj, if_neg (by omega)]
      linarith
  rw [if_pos hvotes]

/-- Extraction on a window holding `M` at position `imax` and `m < M`
everywhere else yields `0` (length `≥ 3`): every non-extremal position votes
`−1` and at least one such position exists. -/
theorem wmExtract_eq_zero_of (w0 : List ℚ) (m M : ℚ) (imax : Nat)
    (hlt : m < M) (himax : imax < w0.length) (hlen3 : 3 ≤ w0.length)
    (hget : ∀ j, j < w0.length → w0.getD j 0 = if j = imax then M else m) :
    wmExtract w0 = 0 := by
  have hMne : M ≠ m := ne_of_gt hlt
  have hMmem : M ∈ w0 := by
    have h := hget imax himax
    rw [if_pos rfl] at h
    rw [← h]
    exact getD_mem w0 imax himax
  obtain ⟨j0, hj0lt, hj0ne⟩ : ∃ j0, j0 < w0.length ∧ j0 ≠ imax := by
    by_cases h0 : imax = 0
    · exact ⟨1, by omega, by omega⟩
    · exact ⟨0, by omega, fun h => h0 h.symm⟩
  have hmmem : m ∈ w0 := by
    have h := hget j0 hj0lt
    rw [if_neg hj0ne] at h
    rw [← h]
    exact getD_mem w0 j0 hj0lt
  have hval : ∀ x ∈ w0, x = m ∨ x = M := by
    intro x hx
    obtain ⟨j, hj, hjx⟩ := exists_getD_of_mem w0 x hx
    rw [hget j hj] at hjx
    by_cases hji : j = imax
    · rw [if_pos hji] at hjx; exact Or.inr hjx.symm
    · rw [if_neg hji] at hjx; exact Or.inl hjx.symm
  have hminw : listMin w0 = m :=
    listMin_eq_of w0 m hmmem (fun x hx => by
      rcases hval x hx with rfl | rfl
      · exact le_refl x
      · exact hlt.le)
  have hmaxw : listMax w0 = M :=
    listMax_eq_of w0 M hMmem (fun x hx => by
      rcases hval x hx with rfl | rfl
      · exact hlt.le
      · exact le_refl x)
  have himax1 : argmaxL w0 = imax := by
    unfold argmaxL
    rw [hmaxw]
    refine indexOf_eq_of_getD w0 M imax himax ?_ ?_
    · rw [hget imax himax, if_pos rfl]
    · intro j hj
      rw [hget j (lt_trans hj himax), if_neg (by omega)]
      exact fun h => hMne h.symm
  have hgmin : w0.getD (argminL w0) 0 = m := by
    unfold argminL
    rw [hminw]
    exact getD_indexOf_self w0 m hmmem
  have hgmaxv : w0.getD imax 0 = M := by rw [hget imax himax, if_pos rfl]
  show (if 0 ≤ voteFrom (argminL w0) (argmaxL w0)
      ((w0.getD (argminL w0) 0 + w0.getD (argmaxL w0) 0) / 2) 0 w0 then 1 else 0) = 0
  rw [himax1, hgmin, hgmaxv]
  obtain ⟨jw, hjw3, hjw1, hjw2⟩ := exists_third (argminL w0) imax
  have hvotes : voteFrom (argminL w0) imax ((m + M) / 2) 0 w0 ≤ -1 := by
    refine voteFrom_neg (argminL w0) imax ((m + M) / 2) w0 0 (fun j hj => ?_)
      ⟨jw, by omega, by omega, by omega⟩
    by_cases hji : 0 + j = argminL w0 ∨ 0 + j = imax
    · exact Or.inl hji
    · refine Or.inr ?_
      push_neg at hji
      rw [hget j hj, if_neg (by omega)]
      intro hcontra
      linarith
  rw [if_neg (by omega)]

/-- Claim C1 counterexample: on the constant window `[5, 5, 5]` (values tied
at min and max) embedding bit `0` and extracting yields `1`, not `0`: the
round trip fails for constant windows. -/
theorem c1_counterexample : ¬ wmExtract (wmEmbed [5, 5, 5] 0) = 0 := by
  have h1 : wmEmbed [5, 5, 5] 0 = [5, 5, 5] := by decide
  have ha : argminL [5, 5, 5] = 0 := by decide
  have hb : argmaxL [5, 5, 5] = 0 := by decide
  have hmid : (([5, 5, 5] : List ℚ).getD 0 0 + ([5, 5, 5] : List ℚ).getD 0 0) / 2
      = 5 := by norm_num
  have hv : (0 : Int) ≤ voteFrom 0 0 5 0 [5, 5, 5] := by decide
  rw [h1]
  show ¬ (if 0 ≤ voteFrom (argminL [5, 5, 5]) (argmaxL [5, 5, 5])
      ((([5, 5, 5] : List ℚ).getD (argminL [5, 5, 5]) 0
        + ([5, 5, 5] : List ℚ).getD (argmaxL [5, 5, 5]) 0) / 2) 0 [5, 5, 5]
      then 1 else 0) = 0
  rw [ha, hb, hmid, if_pos hv]
  decide

/-- Claim C1 (amended): for every window of length `≥ 3` whose minimum is
strictly below its maximum, `extract (embed window bit) = bit` for both bit
values; for constant windows (min = max) embedding leaves the window
unchanged and extraction always returns `1`, so the round trip fails there
for bit `0`. -/
theorem c1_window_median_round_trip (w : List ℚ) (hlen : 3 ≤ w.length)
    (hmm : listMin w < listMax w) :
    wmExtract (wmEmbed w 1) = 1 ∧ wmExtract (wmEmbed w 0) = 0 := by
  have hne : w ≠ [] := by
    intro h
    rw [h] at hlen
    simp at hlen
  have hmin_mem := listMin_mem w hne
  have hmax_mem := listMax_mem w hne
  have himin_lt : argminL w < w.length := indexOf_lt w _ hmin_mem
  have himax_lt : argmaxL w < w.length := indexOf_lt w _ hmax_mem
  have hwimin : w.getD (argminL w) 0 = listMin w := getD_indexOf_self w _ hmin_mem
  have hwimax : w.getD (argmaxL w) 0 = listMax w := getD_indexOf_self w _ hmax_mem
  have hidx_ne : argminL w ≠ argmaxL w := by
    intro h
    rw [h, hwimax] at hwimin
    exact absurd (hwimin ▸ hmm) (lt_irrefl _)
  constructor
  · have hemb : wmEmbed w 1 = setNonExtremal (argminL w) (argmaxL w)
        (w.getD (argmaxL w) 0) 0 w := by
      simp [wmEmbed]
    have hL : (wmEmbed w 1).length = w.length := by
      rw [hemb]; exact setNonExtremal_length _ _ _ w 0
    refine wmExtract_eq_one_of (wmEmbed w 1) (listMin w) (listMax w) (argminL w)
      hmm (by omega) (by omega) ?_
    intro j hj
    rw [hL] at hj
    rw [hemb, setNonExtremal_getD, if_pos hj]
    simp only [Nat.zero_add]
    by_cases hji : j = argminL w
    · rw [if_pos (Or.inl hji), if_pos hji, hji, hwimin]
    · rw [if_neg hji]
      by_cases hjx : j = argmaxL w
      · rw [if_pos (Or.inr hjx), hjx, hwimax]
      · rw [if_neg (by tauto), hwimax]
  · have hemb : wmEmbed w 0 = setNonExtremal (argminL w) (argmaxL w)
        (w.getD (argminL w) 0) 0 w := by
      simp [wmEmbed]
    have hL : (wmEmbed w 0).length = w.length := by
      rw [hemb]; exact setNonExtremal_length _ _ _ w 0
    refine wmExtract_eq_zero_of (wmEmbed w 0) (listMin w) (listMax w) (argmaxL w)
      hmm (by omega) (by omega) ?_
    intro j hj
    rw [hL] at hj
    rw [hemb, setNonExtremal_getD, if_pos hj]
    simp only [Nat.zero_add]
    by_cases hjx : j = argmaxL w
    · rw [if_pos (Or.inr hjx), if_pos hjx, hjx, hwimax]
    · rw [if_neg hjx]
      by_cases hji : j = argminL w
      · rw [if_pos (Or.inl hji), hji, hwimin]
      · rw [if_neg (by tauto), hwimin]

/-- Claim C1 witness: the amended round trip at the window `[1, 2, 3]`. -/
theorem c1_window_median_round_trip_witness :
    wmExtract (wmEmbed [1, 2, 3] 1) = 1 ∧ wmExtract (wmEmbed [1, 2, 3] 0) = 0 :=
  c1_window_median_round_trip [1, 2, 3] (by decide) (by decide)

/-- Claim C10: `WindowMedianBitManipulator.embed` leaves the values at the
argmin and argmax positions unchanged, writes only values already present in
the window into the other positions, preserves the window minimum and
maximum, and keeps every resulting value inside the original `[min, max]`
range. -/
theorem c10_window_median_embed_preserves (w : List ℚ) (bit : Nat) (hne : w ≠ []) :
    (wmEmbed w bit).getD (argminL w) 0 = w.getD (argminL w) 0
      ∧ (wmEmbed w bit).getD (argmaxL w) 0 = w.getD (argmaxL w) 0
      ∧ (∀ x ∈ wmEmbed w bit, x ∈ w)
      ∧ listMin (wmEmbed w bit) = listMin w
      ∧ listMax (wmEmbed w bit) = listMax w
      ∧ (∀ x ∈ wmEmbed w bit, listMin w ≤ x ∧ x ≤ listMax w) := by
  have hmin_mem := listMin_mem w hne
  have hmax_mem := listMax_mem w hne
  have himin_lt : argminL w < w.length := indexOf_lt w _ hmin_mem
  have himax_lt : argmaxL w < w.length := indexOf_lt w _ hmax_mem
  have hwimin : w.getD (argminL w) 0 = listMin w := getD_indexOf_self w _ hmin_mem
  have hwimax : w.getD (argmaxL w) 0 = listMax w := getD_indexOf_self w _ hmax_mem
  have hv_mem : (if bit ≠ 0 then w.getD (argmaxL w) 0 else w.getD (argminL w) 0) ∈ w := by
    by_cases hb : bit ≠ 0
    · rw [if_pos hb]; exact getD_mem w _ himax_lt
    · rw [if_neg hb]; exact getD_mem w _ himin_lt
  have hL : (wmEmbed w bit).length = w.length := setNonExtremal_length _ _ _ w 0
  have hgetD : ∀ j, j < w.length → (wmEmbed w bit).getD j 0
      = if j = argminL w ∨ j = argmaxL w then w.getD j 0
        else (if bit ≠ 0 then w.getD (argmaxL w) 0 else w.getD (argminL w) 0) := by
    intro j hj
    unfold wmEmbed
    rw [setNonExtremal_getD, if_pos hj]
    simp only [Nat.zero_add]
  have h1 : (wmEmbed w bit).getD (argminL w) 0 = w.getD (argminL w) 0 := by
    rw [hgetD _ himin_lt, if_pos (Or.inl rfl)]
  have h2 : (wmEmbed w bit).getD (argmaxL w) 0 = w.getD (argmaxL w) 0 := by
    rw [hgetD _ himax_lt, if_pos (Or.inr rfl)]
  have h3 : ∀ x ∈ wmEmbed w bit, x ∈ w := by
    intro x hx
    obtain ⟨j, hj, hjx⟩ := exists_getD_of_mem _ x hx
    rw [hL] at hj
    rw [hgetD j hj] at hjx
    by_cases hji : j = argminL w ∨ j = argmaxL w
    · rw [if_pos hji] at hjx
      rw [← hjx]
      exact getD_mem w j hj
    · rw [if_neg hji] at hjx
      rw [← hjx]
      exact hv_mem
  have hmin_mem1 : listMin w ∈ wmEmbed w bit := by
    have : (wmEmbed w bit).getD (argminL w) 0 = listMin w := by rw [h1, hwimin]
    rw [← this]
    exact getD_mem _ _ (by omega)
  have hmax_mem1 : listMax w ∈ wmEmbed w bit := by
    have : (wmEmbed w bit).getD (argmaxL w) 0 = listMax w := by rw [h2, hwimax]
    rw [← this]
    exact getD_mem _ _ (by omega)
  refine ⟨h1, h2, h3, ?_, ?_, ?_⟩
  · exact listMin_eq_of _ _ hmin_mem1 (fun x hx => listMin_le w x (h3 x hx))
  · exact listMax_eq_of _ _ hmax_mem1 (fun x hx => le_listMax w x (h3 x hx))
  · exact fun x hx => ⟨listMin_le w x (h3 x hx), le_listMax w x (h3 x hx)⟩

/-- Claim C10 witness: embedding bit `1` into `[1, 2, 3]`. -/
theorem c10_window_median_embed_preserves_witness :
    (wmEmbed [1, 2, 3] 1).getD (argminL [1, 2, 3]) 0
        = ([1, 2, 3] : List ℚ).getD (argminL [1, 2, 3]) 0
      ∧ (wmEmbed [1, 2, 3] 1).getD (argmaxL [1, 2, 3]) 0
        = ([1, 2, 3] : List ℚ).getD (argmaxL [1, 2, 3]) 0
      ∧ (∀ x ∈ wmEmbed [1, 2, 3] 1, x ∈ ([1, 2, 3] : List ℚ))
      ∧ listMin (wmEmbed [1, 2, 3] 1) = listMin [1, 2, 3]
      ∧ listMax (wmEmbed [1, 2, 3] 1) = listMax [1, 2, 3]
      ∧ (∀ x ∈ wmEmbed [1, 2, 3] 1,
          listMin [1, 2, 3] ≤ x ∧ x ≤ listMax [1, 2, 3]) :=
  c10_window_median_embed_preserves [1, 2, 3] 1 (by decide)

/-! ### transforms.Pipe / Every stack balance (dvw/core/transforms.py)

A `Transformation` maps a domain and a scratch stack (`memory`) to a new
domain, pushing reconstruction tokens; `restore` pops them.  `Pipe` applies
its stages in order on `transform` and in reverse on `restore`, sharing one
stack; `Every` maps its inner pipe over a list-valued domain, restoring the
sub-domains in reverse and reversing the result back.  The model keeps the
stages the claims name: a `ChannelFilter`-style stage that pushes the whole
domain and selects a child (`chanFilter`), a `Reshape`/`ToZigzagOrder`/
`ToCosineTransform`-style stage that pushes one token and keeps the domain
(`reshape`), and a stack-free stage (`transpose`); `seq`/`skip` build pipes
and `every` maps a pipe over a list domain.  Failure (numpy index/shape
errors, stack underflow) is `none`. -/

/-- A pipeline domain: an opaque numeric payload or a list of sub-domains. -/
inductive Dom where
  | base (n : Int) : Dom
  | node (ds : List Dom) : Dom

/-- Nested compositions of `Pipe` and `Every` over the stack-pushing and
stack-free stages. -/
inductive Tr where
  | chanFilter (i : Nat) : Tr
  | reshape : Tr
  | transpose : Tr
  | skip : Tr
  | seq (a b : Tr) : Tr
  | every (t : Tr) : Tr

mutual

/-- `Transformation.transform` with explicit scratch stack. -/
def transform : Tr → Dom → List Dom → Option (Dom × List Dom)
  | .chanFilter i, .node l, st =>
    if h : i < l.length then some (l.get ⟨i, h⟩, .node l :: st) else none
  | .chanFilter _, .base _, _ => none
  | .reshape, d, st => some (d, d :: st)
  | .transpose, d, st => some (d, st)
  | .skip, d, st => some (d, st)
  | .seq a b, d, st =>
    match transform a d st with
    | none => none
    | some (d1, st1) => transform b d1 st1
  | .every t, .node l, st =>
    match transformEvery t l st with
    | none => none
    | some (l1, st1) => some (.node l1, st1)
  | .every _, .base _, _ => none
termination_by t _ _ => (sizeOf t, 0)

/-- `Every.transform`: the inner pipe applied to each sub-domain in order,
threading the shared stack. -/
def transformEvery : Tr → List Dom → List Dom → Option (List Dom × List Dom)
  | _, [], st => some ([], st)
  | t, d :: rest, st =>
    match transform t d st with
    | none => none
    | some (d1, st1) =>
      match transformEvery t rest st1 with
      | none => none
      | some (l1, st2) => some (d1 :: l1, st2)
termination_by t l _ => (sizeOf t, l.length + 1)

end

mutual

/-- `Transformation.restore`: pops the tokens pushed by `transform`. -/
def restore : Tr → Dom → List Dom → Option (Dom × List Dom)
  | .chanFilter i, c, .node l :: st =>
    if i < l.length then some (.node (l.set i c), st) else none
  | .chanFilter _, _, _ => none
  | .reshape, d, _ :: st => some (d, st)
  | .reshape, _, [] => none
  | .transpose, d, st => some (d, st)
  | .skip, d, st => some (d, st)
  | .seq a b, d, st =>
    match restore b d st with
    | none => none
    | some (d1, st1) => restore a d1 st1
  | .every t, .node l, st =>
    match restoreEvery t l.reverse st with
    | none => none
    | some (l1, st1) => some (.node l1.reverse, st1)
  | .every _, .base _, _ => none
termination_by t _ _ => (sizeOf t, 0)

/-- `Every.restore`: the sub-domains are walked in reversed order (the caller
passes the reversed list) and the result list is reversed back by the
caller. -/
def restoreEvery : Tr → List Dom → List Dom → Option (List Dom × List Dom)
  | _, [], st => some ([], st)
  | t, d :: rest, st =>
    match restore t d st with
    | none => none
    | some (d1, st1) =>
      match restoreEvery t rest st1 with
      | none => none
      | some (l1, st2) => some (d1 :: l1, st2)
termination_by t l _ => (sizeOf t, l.length + 1)

end

theorem set_get_self {α : Type} : ∀ (l : List α) (i : Nat) (h : i < l.length),
    l.set i (l.get ⟨i, h⟩) = l
  | _ :: _, 0, _ => rfl
  | a :: rest, i + 1, h => by
    simp only [List.get_cons_succ, List.set_cons_succ, List.cons.injEq, true_and]
    exact set_get_self rest i (by simpa using h)

theorem restoreEvery_append (t : Tr) : ∀ (xs ys st : List Dom),
    restoreEvery t (xs ++ ys) st
      = match restoreEvery t xs st with
        | none => none
        | some (lx, st2) =>
          match restoreEvery t ys st2 with
          | none => none
          | some (ly, st3) => some (lx ++ ly, st3)
  | [], ys, st => by
    simp only [List.nil_append, restoreEvery]
    cases restoreEvery t ys st with
    | none => rfl
    | some p => cases p; simp
  | x :: xs, ys, st => by
    simp only [List.cons_append, restoreEvery]
    cases hr : restore t x st with
    | none => rfl
    | some p =>
      obtain ⟨d1, st1⟩ := p
      dsimp only
      rw [restoreEvery_append t xs ys st1]
      cases restoreEvery t xs st1 with
      | none => rfl
      | some q =>
        obtain ⟨lx, st2⟩ := q
        dsimp only
        cases restoreEvery t ys st2 with
        | none => rfl
        | some r =>
          obtain ⟨ly, st3⟩ := r
          simp

mutual

/-- After a successful `transform`, `restore` on its output consumes exactly
the pushed tokens, returning the original domain and the original stack. -/
theorem transform_restore : ∀ (t : Tr) (d : Dom) (st : List Dom)
    (d1 : Dom) (st1 : List Dom),
    transform t d st = some (d1, st1) → restore t d1 st1 = some (d, st)
  | .chanFilter i, d, st, d1, st1, h => by
    cases d with
    | base n => simp [transform] at h
    | node l =>
      simp only [transform] at h
      split at h
      · rename_i hlt
        simp only [Option.some.injEq, Prod.mk.injEq] at h
        obtain ⟨hd, hst⟩ := h
        subst hd
        subst hst
        simp only [restore, if_pos hlt, set_get_self]
      · simp at h
  | .reshape, d, st, d1, st1, h => by
    simp only [transform, Option.some.injEq, Prod.mk.injEq] at h
    obtain ⟨hd, hst⟩ := h
    subst hd
    subst hst
    simp [restore]
  | .transpose, d, st, d1, st1, h => by
    simp only [transform, Option.some.injEq, Prod.mk.injEq] at h
    obtain ⟨hd, hst⟩ := h
    subst hd
    subst hst
    simp [restore]
  | .skip, d, st, d1, st1, h => by
    simp only [transform, Option.some.injEq, Prod.mk.injEq] at h
    obtain ⟨hd, hst⟩ := h
    subst hd
    subst hst
    simp [restore]
  | .seq a b, d, st, d1, st1, h => by
    simp only [transform] at h
    cases hta : transform a d st with
    | none => rw [hta] at h; simp at h
    | some p =>
      obtain ⟨dA, stA⟩ := p
      rw [hta] at h
      dsimp only at h
      have hB := transform_restore b dA stA d1 st1 h
      have hA := transform_restore a d st dA stA hta
      simp only [restore, hB, hA]
  | .every t, d, st, d1, st1, h => by
    cases d with
    | base n => simp [transform] at h
    | node l =>
      simp only [transform] at h
      cases hte : transformEvery t l st with
      | none => rw [hte] at h; simp at h
      | some p =>
        obtain ⟨l1, stE⟩ := p
        rw [hte] at h
        dsimp only at h
        simp only [Option.some.injEq, Prod.mk.injEq] at h
        obtain ⟨hd, hst⟩ := h
        have hE := transformEvery_restoreEvery t l st l1 stE hte
        subst hd
        subst hst
        simp only [restore, hE, List.reverse_reverse]
  termination_by t _ _ _ _ _ => (sizeOf t, 0)

/-- List-level inversion for `Every`: restoring the reversed transformed
sub-domains pops the interleaved tokens in reverse and returns the reversed
originals. -/
theorem transformEvery_restoreEvery : ∀ (t : Tr) (l st l1 st1 : List Dom),
    transformEvery t l st = some (l1, st1) →
    restoreEvery t l1.reverse st1 = some (l.reverse, st)
  | t, [], st, l1, st1, h => by
    simp only [transformEvery, Option.some.injEq, Prod.mk.injEq] at h
    obtain ⟨hl, hst⟩ := h
    subst hst
    cases hl
    simp [restoreEvery]
  | t, d :: rest, st, l1, st1, h => by
    simp only [transformEvery] at h
    cases htd : transform t d st with
    | none => rw [htd] at h; simp at h
    | some p =>
      obtain ⟨d1, stA⟩ := p
      rw [htd] at h
      dsimp only at h
      cases hte : transformEvery t rest stA with
      | none => rw [hte] at h; simp at h
      | some q =>
        obtain ⟨lr, stB⟩ := q
        rw [hte] at h
        simp only [Option.some.injEq, Prod.mk.injEq] at h
        obtain ⟨hl, hst⟩ := h
        subst hl
        rw [← hst]
        have hrec := transformEvery_restoreEvery t rest stA lr stB hte
        have hone := transform_restore t d st d1 stA htd
        rw [List.reverse_cons, restoreEvery_append t lr.reverse [d1] stB, hrec]
        simp only [restoreEvery, hone, List.reverse_cons]
  termination_by t l _ _ _ _ => (sizeOf t, l.length + 1)

end

/-- Claim C5: for every nested composition of `Pipe`/`Every` stages and every
input domain on which `transform` succeeds from an empty scratch stack,
`restore` on the transformed domain succeeds, pops every pushed token exactly
once, and leaves the stack empty (indeed it returns the original domain). -/
theorem c5_pipe_every_stack_balance (t : Tr) (d d1 : Dom) (st1 : List Dom)
    (h : transform t d [] = some (d1, st1)) :
    restore t d1 st1 = some (d, []) :=
  transform_restore t d [] d1 st1 h

/-- Claim C5 witness: a pipe of a channel filter followed by `Every` over a
pushing stage, on a two-channel domain. -/
theorem c5_pipe_every_stack_balance_witness :
    restore (.seq (.chanFilter 0) (.every .reshape))
      (.node [.base 1, .base 2])
      [.base 2, .base 1, .node [.node [.base 1, .base 2]]]
      = some (.node [.node [.base 1, .base 2]], []) :=
  c5_pipe_every_stack_balance (.seq (.chanFilter 0) (.every .reshape))
    (.node [.node [.base 1, .base 2]]) (.node [.base 1, .base 2])
    [.base 2, .base 1, .node [.node [.base 1, .base 2]]]
    (by simp [transform, transformEvery])

/-! ### core.WatermarkEmbedder.embed / BlindWatermarkExtractor.extract
(dvw/core/core.py)

Both orchestrators wrap their streaming body in `try/except`: any exception
raised inside is reported once via an error notification carrying the
exception (`notify(…ERROR…, exception=e)`) and then re-raised, so the caller
receives no statistics; on success no error notification is emitted and the
statistics object is returned.  Notifications become an event list, raising
becomes `Except.error`. -/

/-- Observer notifications of the two orchestrators; the error events carry
the exception. -/
inductive Evt (E : Type) where
  | beforeExtracting : Evt E
  | afterExtracting : Evt E
  | beforeFrameExtracting : Evt E
  | afterFrameExtracting : Evt E
  | errorExtracting (e : E) : Evt E
  | afterEmbedding : Evt E
  | beforeFrameEmbedding : Evt E
  | afterFrameEmbedding : Evt E
  | errorEmbedding (e : E) : Evt E
deriving DecidableEq

/-- Is this an error notification? -/
def isErrorEvt {E : Type} : Evt E → Bool
  | .errorExtracting _ => true
  | .errorEmbedding _ => true
  | _ => false

/-- The `_stream2watermark` frame loop, with a fallible per-frame step: the
before/after-frame notifications are emitted around each step, and an
exception aborts the loop after the before-frame notification. -/
def streamLoop {F E : Type} (step : F → Int → Except E Int) :
    List F → ExtractingStatistics → List (Evt E) × Except E ExtractingStatistics
  | [], s => ([.afterExtracting], .ok s)
  | f :: rest, s =>
    if s.left > 0 then
      match step f s.left with
      | .error e => ([.beforeFrameExtracting], .error e)
      | .ok a =>
        let p := streamLoop step rest ⟨s.left - a, s.extracted + a⟩
        (.beforeFrameExtracting :: .afterFrameExtracting :: p.1, p.2)
    else ([.afterExtracting], .ok s)

/-- `BlindWatermarkExtractor._stream2watermark`: the body of the `try`. -/
def stream2watermark {F E : Type} (step : F → Int → Except E Int)
    (frames : List F) (q : Int) : List (Evt E) × Except E ExtractingStatistics :=
  let p := streamLoop step frames ⟨q, 0⟩
  (Evt.beforeExtracting :: p.1, p.2)

/-- The `try/except` of `BlindWatermarkExtractor.extract`: on an exception,
notify `ERROR_EXTRACTING` with the exception attached, then re-raise. -/
def catchExtract {E S : Type} : List (Evt E) × Except E S → List (Evt E) × Except E S
  | (evts, .ok s) => (evts, .ok s)
  | (evts, .error e) => (evts ++ [.errorExtracting e], .error e)

/-- `BlindWatermarkExtractor.extract`. -/
def extractOrch {F E : Type} (step : F → Int → Except E Int)
    (frames : List F) (q : Int) : List (Evt E) × Except E ExtractingStatistics :=
  catchExtract (stream2watermark step frames q)

/-- Per-run embedding statistics (timestamps omitted). -/
structure EmbeddingStatistics where
  embedded : Int
  copied : Int
  full : Bool
deriving DecidableEq

/-- The `_embed` frame loop: while the reader has bits and frames remain,
transfer one frame through the fallible handler (which consumes reader bits
and returns the embedded count). -/
def embedLoop {F E : Type} (step : F → List Nat → Except E (List Nat × Int)) :
    List F → List Nat → Int → List (Evt E) × Except E (List Nat × Int)
  | [], bits, emb => ([], .ok (bits, emb))
  | f :: rest, bits, emb =>
    if bits.isEmpty then ([], .ok (bits, emb))
    else
      match step f bits with
      | .error e => ([.beforeFrameEmbedding], .error e)
      | .ok p =>
        let r := embedLoop step rest p.1 (emb + p.2)
        (.beforeFrameEmbedding :: .afterFrameEmbedding :: r.1, r.2)

/-- `WatermarkEmbedder._embed`: the body of the `try` — the initial
notification, the frame loop, the (fallible) `copy_frames` drain, and the
final statistics notification. -/
def embedBody {F E : Type} (step : F → List Nat → Except E (List Nat × Int))
    (copyRes : Except E Int) (frames : List F) (bits : List Nat) :
    List (Evt E) × Except E EmbeddingStatistics :=
  let p := embedLoop step frames bits 0
  match p.2 with
  | .error e => (Evt.afterEmbedding :: p.1, .error e)
  | .ok r =>
    match copyRes with
    | .error e => (Evt.afterEmbedding :: p.1, .error e)
    | .ok c =>
      (Evt.afterEmbedding :: p.1 ++ [Evt.afterEmbedding],
        .ok ⟨r.2, c, r.1.isEmpty⟩)

/-- The `try/except` of `WatermarkEmbedder.embed`: on an exception, notify
`ERROR_EMBEDDING` with the exception attached, then re-raise. -/
def catchEmbed {E S : Type} : List (Evt E) × Except E S → List (Evt E) × Except E S
  | (evts, .ok s) => (evts, .ok s)
  | (evts, .error e) => (evts ++ [.errorEmbedding e], .error e)

/-- `WatermarkEmbedder.embed`. -/
def embedOrch {F E : Type} (step : F → List Nat → Except E (List Nat × Int))
    (copyRes : Except E Int) (frames : List F) (bits : List Nat) :
    List (Evt E) × Except E EmbeddingStatistics :=
  catchEmbed (embedBody step copyRes frames bits)

theorem streamLoop_no_error {F E : Type} (step : F → Int → Except E Int) :
    ∀ (frames : List F) (s : ExtractingStatistics),
      (streamLoop step frames s).1.countP (fun x => isErrorEvt x) = 0
  | [], s => by simp [streamLoop, isErrorEvt]
  | f :: rest, s => by
    simp only [streamLoop]
    split
    · cases hstep : step f s.left with
      | error e => simp [isErrorEvt]
      | ok a =>
        have ih := streamLoop_no_error step rest ⟨s.left - a, s.extracted + a⟩
        dsimp only
        simp only [List.countP_cons, ih]
        rfl
    · simp [isErrorEvt]

theorem embedLoop_no_error {F E : Type} (step : F → List Nat → Except E (List Nat × Int)) :
    ∀ (frames : List F) (bits : List Nat) (emb : Int),
      (embedLoop step frames bits emb).1.countP (fun x => isErrorEvt x) = 0
  | [], bits, emb => by simp [embedLoop]
  | f :: rest, bits, emb => by
    simp only [embedLoop]
    split
    · simp
    · cases hstep : step f bits with
      | error e => simp [isErrorEvt]
      | ok p =>
        have ih := embedLoop_no_error step rest p.1 (emb + p.2)
        dsimp only
        simp only [List.countP_cons, ih]
        rfl

theorem embedBody_no_error {F E : Type} (step : F → List Nat → Except E (List Nat × Int))
    (copyRes : Except E Int) (frames : List F) (bits : List Nat) :
    (embedBody step copyRes frames bits).1.countP (fun x => isErrorEvt x) = 0 := by
  have h := embedLoop_no_error step frames bits 0
  simp only [embedBody]
  cases (embedLoop step frames bits 0).2 with
  | error e => simpa [isErrorEvt] using h
  | ok r =>
    cases copyRes with
    | error e => simpa [isErrorEvt] using h
    | ok c =>
      dsimp only
      simp only [List.countP_cons, List.countP_append, h]
      rfl

/-- Claim C7: if the streaming/draining body of an extraction or embedding
run raises, the orchestrator emits exactly one error notification, that
notification carries the raised exception, and the same exception is
re-raised (no statistics are returned); if the body succeeds, no error
notification is emitted and the statistics are returned. -/
theorem c7_error_notification {F E : Type} (step : F → Int → Except E Int)
    (frames : List F) (q : Int)
    (estep : F → List Nat → Except E (List Nat × Int)) (copyRes : Except E Int)
    (eframes : List F) (bits : List Nat) :
    (∀ e, (extractOrch step frames q).2 = .error e →
        (extractOrch step frames q).1.countP (fun x => isErrorEvt x) = 1
          ∧ Evt.errorExtracting e ∈ (extractOrch step frames q).1)
      ∧ (∀ s, (extractOrch step frames q).2 = .ok s →
          (extractOrch step frames q).1.countP (fun x => isErrorEvt x) = 0)
      ∧ (extractOrch step frames q).2 = (stream2watermark step frames q).2
      ∧ (∀ e, (embedOrch estep copyRes eframes bits).2 = .error e →
          (embedOrch estep copyRes eframes bits).1.countP (fun x => isErrorEvt x) = 1
            ∧ Evt.errorEmbedding e ∈ (embedOrch estep copyRes eframes bits).1)
      ∧ (∀ s, (embedOrch estep copyRes eframes bits).2 = .ok s →
          (embedOrch estep copyRes eframes bits).1.countP (fun x => isErrorEvt x) = 0)
      ∧ (embedOrch estep copyRes eframes bits).2
          = (embedBody estep copyRes eframes bits).2 := by
  have hxno : (stream2watermark step frames q).1.countP (fun x => isErrorEvt x) = 0 := by
    simp only [stream2watermark]
    simpa [isErrorEvt] using streamLoop_no_error step frames ⟨q, 0⟩
  have hbno := embedBody_no_error estep copyRes eframes bits
  rcases hp : stream2watermark step frames q with ⟨evts, r⟩
  rcases hq : embedBody estep copyRes eframes bits with ⟨bevts, br⟩
  rw [hp] at hxno
  rw [hq] at hbno
  simp only at hxno hbno
  have hx : extractOrch step frames q = catchExtract (evts, r) := by
    rw [extractOrch, hp]
  have hb : embedOrch estep copyRes eframes bits = catchEmbed (bevts, br) := by
    rw [embedOrch, hq]
  rw [hx, hb]
  refine ⟨?_, ?_, ?_, ?_, ?_, ?_⟩
  · intro e he
    cases r with
    | ok s => simp [catchExtract] at he
    | error e0 =>
      simp only [catchExtract, Except.error.injEq] at he ⊢
      subst he
      constructor
      · rw [List.countP_append, hxno]
        rfl
      · simp
  · intro s hs
    cases r with
    | ok s0 => simpa [catchExtract] using hxno
    | error e0 => simp [catchExtract] at hs
  · cases r with
    | ok s0 => simp [catchExtract]
    | error e0 => simp [catchExtract]
  · intro e he
    cases br with
    | ok s => simp [catchEmbed] at he
    | error e0 =>
      simp only [catchEmbed, Except.error.injEq] at he ⊢
      subst he
      constructor
      · rw [List.countP_append, hbno]
        rfl
      · simp
  · intro s hs
    cases br with
    | ok s0 => simpa [catchEmbed] using hbno
    | error e0 => simp [catchEmbed] at hs
  · cases br with
    | ok s0 => simp [catchEmbed]
    | error e0 => simp [catchEmbed]

/-- Claim C7 witness: a per-frame step that raises `7` during extraction and
one that raises `3` during embedding each produce exactly one error
notification carrying that exception. -/
theorem c7_error_notification_witness :
    ((extractOrch (fun (_ : Nat) (_ : Int) => (Except.error 7 : Except Nat Int))
        [0] 5).1.countP (fun x => isErrorEvt x) = 1
      ∧ Evt.errorExtracting 7
          ∈ (extractOrch (fun (_ : Nat) (_ : Int) => (Except.error 7 : Except Nat Int))
              [0] 5).1)
      ∧ ((embedOrch
            (fun (_ : Nat) (_ : List Nat) =>
              (Except.error 3 : Except Nat (List Nat × Int)))
            (.ok 0) [0] [1]).1.countP (fun x => isErrorEvt x) = 1
        ∧ Evt.errorEmbedding 3
            ∈ (embedOrch
                (fun (_ : Nat) (_ : List Nat) =>
                  (Except.error 3 : Except Nat (List Nat × Int)))
                (.ok 0) [0] [1]).1) := by
  have h := c7_error_notification
    (fun (_ : Nat) (_ : Int) => (Except.error 7 : Except Nat Int)) [0] 5
    (fun (_ : Nat) (_ : List Nat) => (Except.error 3 : Except Nat (List Nat × Int)))
    (.ok 0) [0] [1]
  exact ⟨h.1 7 rfl, h.2.2.2.1 3 rfl⟩

end Dvw
